import Mathlib

/-!
Verification development for the campaign-calendar core of the
Reddit-Mastermind frontend (src/frontend/src/components/CampaignCalendar.js):
the week-bucketing algorithm (safeDate, getWeekFromTimestamp and the
week-set effect) and the comment-thread reconstruction
(renderCommentThread, its norm helper and its recursion).

Modelling conventions (shallow embedding of the JavaScript source):

* A timestamp field value is a JSTime: it is null/undefined, a number, or
  a string together with the outcome that the engine's Date parser would
  produce for it (Date string parsing is environment-defined, so that
  outcome is carried as data; all the code ever does with it is test it
  for validity and read getTime()).  Instants are integers, in
  milliseconds, exactly as JavaScript getTime() returns them; new Date(n)
  for a number is valid exactly when the magnitude is at most 8.64e15.
* An id field value (comment_id / parent_comment_id) is a JSVal: null or
  undefined, a number, or a string.  String(v) for an integer is its
  decimal form, which toString on Int also produces.
* Math.floor of the quotient of two doubles that hold exact integers is
  Int.fdiv (floor division) here.  For the divisions the code performs
  this is exact: the numerator magnitude is at most 2 * 8.64e15 < 2^54,
  so the double division cannot round across an integer boundary.
* Array.prototype.sort with the comparator (a, b) => ka - kb is a stable
  ascending sort by the integer key k (stability is mandated by the
  ECMAScript specification).  For a total preorder there is exactly one
  stable sorted permutation of a list, so the structural
  List.insertionSort models it.
* String.prototype.trim strips leading and trailing whitespace, which
  jsTrim spells out at the character level.
* renderCommentThread recurses without any structural decrease (it always
  passes the full comment list again), so the JavaScript function is not
  total; the embedding buildThreadFuel takes an explicit fuel that bounds
  recursion depth, returning the truncation of the (possibly infinite)
  emission sequence.  buildThread uses fuel (length + 1), which the
  development proves is never exhausted on well-formed input; divergence
  of the source is expressed as unbounded growth of the output in the
  fuel.
* Only the fields the modelled logic reads are carried: the author,
  body and display-only synthesized key (comment.comment_id || ...) have
  no influence on the emission sequence, the week computation, or the
  recursion, and are omitted.
-/

namespace RedditMastermind

/-- A JavaScript value sitting in a timestamp field.  The str case carries
the engine's Date-parse outcome for that string as data (none models an
Invalid Date); the code only ever consumes that outcome. -/
inductive JSTime where
  | null : JSTime
  | num (n : Int) : JSTime
  | str (s : String) (parsed : Option Int) : JSTime
  deriving DecidableEq, Repr

/-- JavaScript truthiness test for a timestamp value, as used by the
source guards if (!ts) and if (!timestamp): null/undefined, the number 0
and the empty string are falsy. -/
def jsFalsy : JSTime → Bool
  | JSTime.null => true
  | JSTime.num n => n == 0
  | JSTime.str s _ => s == ""

/-- Embedding of safeDate (CampaignCalendar.js lines 29-33):
if (!ts) return null; const d = new Date(ts);
return Number.isNaN(d.getTime()) ? null : d.
The result is the instant in milliseconds, or none for null.  A numeric
argument yields a valid Date exactly when its magnitude is at most
8.64e15 (the ECMAScript time-value range). -/
def safeDate (ts : JSTime) : Option Int :=
  if jsFalsy ts then none
  else
    match ts with
    | JSTime.null => none
    | JSTime.num n => if n.natAbs ≤ 8640000000000000 then some n else none
    | JSTime.str _ parsed => parsed

/-- A post, reduced to the single field the modelled logic reads.
The source posts also carry post_id, subreddit, title, body,
author_username, keyword_ids and comments, all of which are display-only
for the week computation. -/
structure Post where
  timestamp : JSTime
  deriving DecidableEq, Repr

/-- Sort key used by every timestamp sort in the source:
safeDate(x?.timestamp)?.getTime() ?? 0. -/
def sortKey (ts : JSTime) : Int :=
  (safeDate ts).getD 0

/-- Timestamp of sortedPostsArray[0]?.timestamp: the head's timestamp, or
undefined (null) when the array is empty. -/
def headTimestamp : List Post → JSTime
  | [] => JSTime.null
  | p :: _ => p.timestamp

/-- Embedding of getWeekFromTimestamp (CampaignCalendar.js lines 36-51).
The guard !timestamp || !sortedPostsArray?.length returns 1; then both
the post timestamp and the first post's timestamp must parse, else 1;
otherwise the week is floor(floor((tp - t0) / 86400000 ms) / 7) + 1 with
floor division (Math.floor floors toward negative infinity). -/
def getWeekFromTimestamp (timestamp : JSTime) (sortedPostsArray : List Post) : Int :=
  if jsFalsy timestamp || sortedPostsArray.isEmpty then 1
  else
    match safeDate timestamp, safeDate (headTimestamp sortedPostsArray) with
    | some postDate, some firstPostDate =>
        Int.fdiv (Int.fdiv (postDate - firstPostDate) 86400000) 7 + 1
    | _, _ => 1

/-- Ordering for the post sorts in the source
((a, b) => (safeDate(a?.timestamp)?.getTime() ?? 0) - (...b...)):
ascending by sortKey; Array.prototype.sort is stable. -/
def postLe (a b : Post) : Prop :=
  sortKey a.timestamp ≤ sortKey b.timestamp

instance : DecidableRel postLe := fun _ _ => Int.decLe _ _

instance : IsTotal Post postLe := ⟨fun _ _ => Int.le_total _ _⟩

instance : IsTrans Post postLe := ⟨fun _ _ _ => Int.le_trans⟩

/-- Embedding of the working sorted copy built in the week-bucketing
useEffect (lines 58-62): [...postsData].sort by parsed timestamp. -/
def sortedPosts (posts : List Post) : List Post :=
  posts.insertionSort postLe

/-- The per-post week numbers the useEffect computes (line 68): each post
of the sorted copy is bucketed against that same sorted copy. -/
def weeksOf (posts : List Post) : List Int :=
  (sortedPosts posts).map (fun p => getWeekFromTimestamp p.timestamp (sortedPosts posts))

/-- Embedding of the total-week computation (lines 66-72): for a
non-empty set, Math.max(...weeks, 1) over the set of computed weeks
(duplicates are irrelevant to the maximum); for an empty set, 1. -/
def totalWeeks (posts : List Post) : Int :=
  if (sortedPosts posts).isEmpty then 1
  else (weeksOf posts).foldl max 1

/-- A JavaScript value sitting in an id field (comment_id or
parent_comment_id): null/undefined, a number, or a string. -/
inductive JSVal where
  | null : JSVal
  | num (n : Int) : JSVal
  | str (s : String) : JSVal
  deriving DecidableEq, Repr

/-- String(v) for a JSVal that is not null/undefined. -/
def jsString : JSVal → String
  | JSVal.null => "null"
  | JSVal.num n => toString n
  | JSVal.str s => s

/-- String.prototype.trim: strip leading and trailing whitespace. -/
def jsTrim (s : String) : String :=
  String.mk (((s.data.dropWhile Char.isWhitespace).reverse.dropWhile Char.isWhitespace).reverse)

/-- Embedding of norm (CampaignCalendar.js lines 100-104):
null/undefined map to null; otherwise String(v).trim(), and the empty
trimmed string also maps to null. -/
def norm (v : JSVal) : Option String :=
  match v with
  | JSVal.null => none
  | _ =>
      let s := jsTrim (jsString v)
      if s.length = 0 then none else some s

/-- A comment, reduced to the fields the thread reconstruction reads:
its own id, its parent reference and its timestamp.  author_username,
username, body and comment_text only feed the rendered text, and the
display key synthesized when comment_id is falsy is never used as a
recursion target (the recursion uses comment.comment_id ?? null). -/
structure Comment where
  comment_id : JSVal
  parent_comment_id : JSVal
  timestamp : JSTime
  deriving DecidableEq, Repr

/-- Ordering for the sibling sort (lines 110-114), ascending by parsed
timestamp with missing/malformed timestamps keyed as 0. -/
def commentLe (a b : Comment) : Prop :=
  sortKey a.timestamp ≤ sortKey b.timestamp

instance : DecidableRel commentLe := fun _ _ => Int.decLe _ _

instance : IsTotal Comment commentLe := ⟨fun _ _ => Int.le_total _ _⟩

instance : IsTrans Comment commentLe := ⟨fun _ _ _ => Int.le_trans⟩

/-- Embedding of the direct-child selection (lines 108-114): filter the
comments whose normalized parent id equals the normalized target id, then
sort them ascending by parsed timestamp. -/
def directComments (comments : List Comment) (parentId : JSVal) : List Comment :=
  (comments.filter (fun c => decide (norm c.parent_comment_id = norm parentId))).insertionSort
    commentLe

/-- Fueled embedding of renderCommentThread (lines 99-173): emit each
selected direct child at the current depth, then recurse with that
child's raw comment_id (?? null, which is the identity here) as the new
target and depth + 1.  The source recursion has no structural decrease,
so fuel bounds the recursion depth and fuel 0 truncates. -/
def buildThreadFuel : Nat → List Comment → JSVal → Nat → List (Comment × Nat)
  | 0, _, _, _ => []
  | fuel + 1, comments, parentId, depth =>
      (directComments comments parentId).flatMap
        (fun comment =>
          (comment, depth) :: buildThreadFuel fuel comments comment.comment_id (depth + 1))

/-- The thread-rendering sequence for a post's comment list, as invoked
at line 296: renderCommentThread(post.comments, null, 0), with fuel
length + 1, which is proved sufficient on well-formed input. -/
def buildThread (comments : List Comment) : List (Comment × Nat) :=
  buildThreadFuel (comments.length + 1) comments JSVal.null 0

/-! ## Week bucketing: helper lemmas and claims C1, C2, C7, C8, C10 -/

theorem safeDate_some_falsy {ts : JSTime} {v : Int} (h : safeDate ts = some v) :
    jsFalsy ts = false := by
  cases hb : jsFalsy ts
  · rfl
  · rw [safeDate.eq_def, hb] at h
    simp at h

theorem getWeek_eq_of_parse (ts : JSTime) (p : Post) (rest : List Post) (tp t0 : Int)
    (hp : safeDate ts = some tp) (h0 : safeDate p.timestamp = some t0) :
    getWeekFromTimestamp ts (p :: rest) = Int.fdiv (Int.fdiv (tp - t0) 86400000) 7 + 1 := by
  rw [getWeekFromTimestamp.eq_def, safeDate_some_falsy hp]
  simp only [headTimestamp, hp, h0, List.isEmpty_cons, Bool.false_or]
  rfl

theorem week_eq_one_of_no_parse (ts : JSTime) (posts : List Post)
    (h : safeDate ts = none) : getWeekFromTimestamp ts posts = 1 := by
  rw [getWeekFromTimestamp.eq_def]
  split
  · rfl
  · rw [h]

theorem week_eq_one_of_head_no_parse (ts : JSTime) (p : Post) (rest : List Post)
    (h : safeDate p.timestamp = none) : getWeekFromTimestamp ts (p :: rest) = 1 := by
  rw [getWeekFromTimestamp.eq_def]
  split
  · rfl
  · simp only [headTimestamp, h]
    cases safeDate ts <;> rfl

theorem sortKey_eq_of_parse {ts : JSTime} {v : Int} (h : safeDate ts = some v) :
    sortKey ts = v := by
  rw [sortKey, h]
  rfl

theorem foldl_max_init_le (l : List Int) (a : Int) : a ≤ l.foldl max a := by
  induction l generalizing a with
  | nil => exact le_refl a
  | cons b l ih =>
      rw [List.foldl_cons]
      exact le_trans (le_max_left a b) (ih (max a b))

theorem foldl_max_mem_le (l : List Int) (a w : Int) (hw : w ∈ l) : w ≤ l.foldl max a := by
  induction l generalizing a with
  | nil => cases hw
  | cons b l ih =>
      rw [List.foldl_cons]
      rcases List.mem_cons.mp hw with h | h
      · subst h
        exact le_trans (le_max_right a w) (foldl_max_init_le l (max a w))
      · exact ih (max a b) h

theorem foldl_max_attained (l : List Int) (a : Int) :
    l.foldl max a = a ∨ l.foldl max a ∈ l := by
  induction l generalizing a with
  | nil => exact Or.inl rfl
  | cons b l ih =>
      rcases ih (max a b) with h | h
      · rcases max_choice a b with hm | hm
        · exact Or.inl (by rw [List.foldl_cons, h, hm])
        · exact Or.inr (by rw [List.foldl_cons, h, hm]; exact List.mem_cons_self b l)
      · exact Or.inr (List.mem_cons_of_mem b (by rw [List.foldl_cons]; exact h))

theorem foldl_max_of_le (l : List Int) (a : Int) (h : ∀ w ∈ l, w ≤ a) :
    l.foldl max a = a := by
  induction l generalizing a with
  | nil => rfl
  | cons b l ih =>
      have hb : max a b = a := max_eq_left (h b (List.mem_cons_self b l))
      rw [List.foldl_cons, hb]
      exact ih a (fun w hw => h w (List.mem_cons_of_mem b hw))

theorem sortedPosts_perm (posts : List Post) : (sortedPosts posts).Perm posts :=
  List.perm_insertionSort postLe posts

theorem one_le_week_mem_sorted (posts : List Post) (p : Post)
    (hp : p ∈ sortedPosts posts) :
    1 ≤ getWeekFromTimestamp p.timestamp (sortedPosts posts) := by
  rcases hsp : sortedPosts posts with _ | ⟨q, l⟩
  · rw [hsp] at hp; cases hp
  · rcases hsd : safeDate p.timestamp with _ | tp
    · rw [week_eq_one_of_no_parse _ _ hsd]
    · rcases hsd0 : safeDate q.timestamp with _ | t0
      · rw [week_eq_one_of_head_no_parse _ _ _ hsd0]
      · have hsort : (q :: l).Sorted postLe := by
          rw [← hsp]
          exact List.sorted_insertionSort postLe posts
        have hqp : postLe q p := by
          rw [hsp] at hp
          rcases List.mem_cons.mp hp with h | h
          · exact h ▸ le_refl _
          · exact (List.pairwise_cons.mp hsort).1 p h
        have hle : t0 ≤ tp := by
          have h1 := sortKey_eq_of_parse hsd
          have h2 := sortKey_eq_of_parse hsd0
          rw [postLe, h1, h2] at hqp
          exact hqp
        rw [getWeek_eq_of_parse _ _ _ tp t0 hsd hsd0]
        have hd : 0 ≤ Int.fdiv (tp - t0) 86400000 :=
          Int.fdiv_nonneg (by omega) (by omega)
        have hw : 0 ≤ Int.fdiv (Int.fdiv (tp - t0) 86400000) 7 :=
          Int.fdiv_nonneg hd (by omega)
        omega

theorem weeksOf_week_eq_one (posts : List Post)
    (h : ∀ p ∈ posts, safeDate p.timestamp = none) :
    ∀ w ∈ weeksOf posts, w = 1 := by
  intro w hw
  rcases List.mem_map.mp hw with ⟨p, hp, hpe⟩
  have hpp : p ∈ posts := (sortedPosts_perm posts).mem_iff.mp hp
  rw [← hpe]
  exact week_eq_one_of_no_parse _ _ (h p hpp)

/-- Claim C2: for a non-empty post set the computed total week count is
the maximum of the per-post week numbers (it is attained by some
per-post week and bounds every per-post week) and is at least 1; for an
empty post set, or one in which every timestamp is missing or
unparseable, the total is exactly 1. -/
theorem C2_total_weeks (posts : List Post) :
    (posts ≠ [] →
      totalWeeks posts ∈ weeksOf posts ∧
      (∀ w ∈ weeksOf posts, w ≤ totalWeeks posts) ∧
      1 ≤ totalWeeks posts) ∧
    (posts = [] → totalWeeks posts = 1) ∧
    ((∀ p ∈ posts, safeDate p.timestamp = none) → totalWeeks posts = 1) := by
  refine ⟨?_, ?_, ?_⟩
  · intro hne
    have hsne : (sortedPosts posts).isEmpty = false := by
      rcases hsp : sortedPosts posts with _ | ⟨q, l⟩
      · exact absurd (List.Perm.nil_eq ((hsp ▸ sortedPosts_perm posts))).symm hne
      · rfl
    have htw : totalWeeks posts = (weeksOf posts).foldl max 1 := by
      rw [totalWeeks, hsne]
      rfl
    have hone : ∀ w ∈ weeksOf posts, 1 ≤ w := by
      intro w hw
      rcases List.mem_map.mp hw with ⟨p, hp, hpe⟩
      exact hpe ▸ one_le_week_mem_sorted posts p hp
    refine ⟨?_, ?_, ?_⟩
    · rcases foldl_max_attained (weeksOf posts) 1 with h | h
      · rcases hwx : weeksOf posts with _ | ⟨w, ws⟩
        · have : (sortedPosts posts).length = 0 := by
            have hlen : (weeksOf posts).length = (sortedPosts posts).length :=
              List.length_map _ _
            rw [hwx] at hlen
            exact hlen.symm
          rcases hq : sortedPosts posts with _ | _
          · rw [hq] at hsne; exact absurd hsne (by simp [List.isEmpty])
          · rw [hq] at this; exact absurd this (by simp)
        · have hw1 : w = 1 := by
            have hle : w ≤ 1 := by
              have := foldl_max_mem_le (weeksOf posts) 1 w
                (hwx ▸ List.mem_cons_self w ws)
              rw [h] at this
              exact this
            have hge : 1 ≤ w := hone w (hwx ▸ List.mem_cons_self w ws)
            omega
          rw [htw, h, hw1]
          exact List.mem_cons_self 1 ws
      · exact htw ▸ h
    · intro w hw
      exact htw ▸ foldl_max_mem_le _ 1 w hw
    · exact htw ▸ foldl_max_init_le _ 1
  · intro he
    rw [he]
    rfl
  · intro hall
    rw [totalWeeks]
    cases hsne : (sortedPosts posts).isEmpty
    · simp only [if_neg Bool.false_ne_true]
      exact foldl_max_of_le _ 1
        (fun w hw => le_of_eq (weeksOf_week_eq_one posts hall w hw))
    · rfl

/-- Claim C1: for every post whose timestamp parses to an instant tp, and
a reference set whose first post's timestamp parses to t0, the computed
week is floor(floor((tp - t0) / one day) / 7) + 1 with floor division;
in particular, relative to a reference post one day after the epoch, a
post 0 or 6 days later is week 1, exactly 7 days later is week 2, 14
days later week 3 and 21 days later week 4. -/
theorem C1_week_formula (ts : JSTime) (p : Post) (rest : List Post) (tp t0 : Int)
    (hp : safeDate ts = some tp) (h0 : safeDate p.timestamp = some t0) :
    getWeekFromTimestamp ts (p :: rest) = Int.fdiv (Int.fdiv (tp - t0) 86400000) 7 + 1 ∧
    getWeekFromTimestamp (JSTime.num (86400000 + 0 * 86400000))
      [Post.mk (JSTime.num 86400000)] = 1 ∧
    getWeekFromTimestamp (JSTime.num (86400000 + 6 * 86400000))
      [Post.mk (JSTime.num 86400000)] = 1 ∧
    getWeekFromTimestamp (JSTime.num (86400000 + 7 * 86400000))
      [Post.mk (JSTime.num 86400000)] = 2 ∧
    getWeekFromTimestamp (JSTime.num (86400000 + 14 * 86400000))
      [Post.mk (JSTime.num 86400000)] = 3 ∧
    getWeekFromTimestamp (JSTime.num (86400000 + 21 * 86400000))
      [Post.mk (JSTime.num 86400000)] = 4 :=
  ⟨getWeek_eq_of_parse ts p rest tp t0 hp h0,
   by decide, by decide, by decide, by decide, by decide⟩

/-- Witness for C1: a post 8 days after a reference post at instant
86400000 satisfies the formula (week 2), with every hypothesis
discharged at the concrete input. -/
theorem C1_week_formula_witness :
    getWeekFromTimestamp (JSTime.num 777600000) [Post.mk (JSTime.num 86400000)] =
      Int.fdiv (Int.fdiv ((777600000 : Int) - 86400000) 86400000) 7 + 1 ∧
    getWeekFromTimestamp (JSTime.num (86400000 + 0 * 86400000))
      [Post.mk (JSTime.num 86400000)] = 1 ∧
    getWeekFromTimestamp (JSTime.num (86400000 + 6 * 86400000))
      [Post.mk (JSTime.num 86400000)] = 1 ∧
    getWeekFromTimestamp (JSTime.num (86400000 + 7 * 86400000))
      [Post.mk (JSTime.num 86400000)] = 2 ∧
    getWeekFromTimestamp (JSTime.num (86400000 + 14 * 86400000))
      [Post.mk (JSTime.num 86400000)] = 3 ∧
    getWeekFromTimestamp (JSTime.num (86400000 + 21 * 86400000))
      [Post.mk (JSTime.num 86400000)] = 4 :=
  C1_week_formula (JSTime.num 777600000) (Post.mk (JSTime.num 86400000)) []
    777600000 86400000 (by decide) (by decide)

/-- Witness for C2: two posts one and nine days after the epoch have
their total attained among the weeks and at least 1; the empty set and
an all-unparseable singleton give total 1. -/
theorem C2_total_weeks_witness :
    totalWeeks [Post.mk (JSTime.num 86400000), Post.mk (JSTime.num 777600000)] ∈
      weeksOf [Post.mk (JSTime.num 86400000), Post.mk (JSTime.num 777600000)] ∧
    1 ≤ totalWeeks [Post.mk (JSTime.num 86400000), Post.mk (JSTime.num 777600000)] ∧
    totalWeeks [] = 1 ∧
    totalWeeks [Post.mk (JSTime.str ("not a date") none)] = 1 :=
  ⟨((C2_total_weeks _).1 (by decide)).1,
   ((C2_total_weeks _).1 (by decide)).2.2,
   (C2_total_weeks []).2.1 rfl,
   (C2_total_weeks _).2.2 (by decide)⟩

/-- Claim C7: the week computation is total and never drops a post: a
post whose timestamp is missing or does not parse is assigned week 1,
every post is assigned week 1 when the reference head's timestamp does
not parse, and the per-post week list always has one entry per post. -/
theorem C7_malformed_week_one (ts : JSTime) (posts : List Post) :
    (safeDate ts = none → getWeekFromTimestamp ts posts = 1) ∧
    (∀ p rest, posts = p :: rest → safeDate p.timestamp = none →
      getWeekFromTimestamp ts posts = 1) ∧
    (weeksOf posts).length = posts.length := by
  refine ⟨fun h => week_eq_one_of_no_parse ts posts h, ?_, ?_⟩
  · intro p rest hps h
    exact hps ▸ week_eq_one_of_head_no_parse ts p rest h
  · rw [weeksOf, List.length_map]
    exact (sortedPosts_perm posts).length_eq

/-- Witness for C7: an unparseable string timestamp maps to week 1
against a parseable reference, a parseable timestamp maps to week 1
against an unparseable reference head, and a two-post set yields two
week entries. -/
theorem C7_malformed_week_one_witness :
    getWeekFromTimestamp (JSTime.str ("garbage") none) [Post.mk (JSTime.num 86400000)] = 1 ∧
    getWeekFromTimestamp (JSTime.num 777600000)
      [Post.mk (JSTime.str ("garbage") none)] = 1 ∧
    (weeksOf [Post.mk (JSTime.num 86400000), Post.mk (JSTime.str ("garbage") none)]).length =
      2 :=
  ⟨(C7_malformed_week_one (JSTime.str ("garbage") none) [Post.mk (JSTime.num 86400000)]).1
      (by decide),
   (C7_malformed_week_one (JSTime.num 777600000)
      [Post.mk (JSTime.str ("garbage") none)]).2.1 _ [] rfl (by decide),
   (C7_malformed_week_one JSTime.null
      [Post.mk (JSTime.num 86400000), Post.mk (JSTime.str ("garbage") none)]).2.2⟩

/-- Claim C8: when both timestamps parse but the queried post precedes
the reference head, the divisions floor toward negative infinity and
the computed week is at most 0, so callers may not assume the result is
at least 1 when mixing post sets. -/
theorem C8_negative_elapsed (ts : JSTime) (p : Post) (rest : List Post) (tp t0 : Int)
    (hp : safeDate ts = some tp) (h0 : safeDate p.timestamp = some t0)
    (hlt : tp < t0) : getWeekFromTimestamp ts (p :: rest) ≤ 0 := by
  rw [getWeek_eq_of_parse ts p rest tp t0 hp h0]
  have hd : Int.fdiv (tp - t0) 86400000 < 0 := Int.fdiv_neg' (by omega) (by omega)
  have hw : Int.fdiv (Int.fdiv (tp - t0) 86400000) 7 < 0 := Int.fdiv_neg' hd (by omega)
  omega

/-- Witness for C8: a post one day after the epoch, measured against a
reference head nine days after the epoch, gets week
floor(floor(-8) / 7) + 1 = 0, which is at most 0. -/
theorem C8_negative_elapsed_witness :
    getWeekFromTimestamp (JSTime.num 86400000) [Post.mk (JSTime.num 777600000)] ≤ 0 :=
  C8_negative_elapsed (JSTime.num 86400000) (Post.mk (JSTime.num 777600000)) []
    86400000 777600000 (by decide) (by decide) (by decide)

/-- Claim C10: the shared parser treats every falsy timestamp as
missing: the number 0 (the Unix epoch, a valid instant) and the empty
string parse to null exactly like an absent timestamp, so such posts
are assigned week 1 and sort key 0, identically to a post with no
timestamp at all. -/
theorem C10_falsy_timestamps (posts : List Post) (pe : Option Int) :
    safeDate (JSTime.num 0) = none ∧
    safeDate (JSTime.str ("") pe) = none ∧
    safeDate JSTime.null = none ∧
    getWeekFromTimestamp (JSTime.num 0) posts = 1 ∧
    getWeekFromTimestamp (JSTime.str ("") pe) posts = 1 ∧
    getWeekFromTimestamp JSTime.null posts = 1 ∧
    sortKey (JSTime.num 0) = 0 ∧
    sortKey (JSTime.str ("") pe) = 0 ∧
    sortKey JSTime.null = 0 :=
  ⟨rfl, rfl, rfl, rfl, rfl, rfl, rfl, rfl, rfl⟩

/-! ## Thread reconstruction: parent graph and emission infrastructure -/

/-- Normalized own id of a comment. -/
def ckey (c : Comment) : Option String := norm c.comment_id

/-- Normalized parent reference of a comment. -/
def cparent (c : Comment) : Option String := norm c.parent_comment_id

/-- One parent-graph edge within a comment list: b names a as its parent. -/
def Step (cs : List Comment) (a b : Comment) : Prop :=
  a ∈ cs ∧ b ∈ cs ∧ cparent b = ckey a

/-- Strict ancestor relation of the parent graph. -/
def Anc (cs : List Comment) : Comment → Comment → Prop := Relation.TransGen (Step cs)

/-- Reflexive ancestor relation of the parent graph. -/
def AncE (cs : List Comment) : Comment → Comment → Prop := Relation.ReflTransGen (Step cs)

/-- Acyclicity of the parent graph, phrased as the existence of a
topological rank: every parent has strictly smaller rank than each of
its children.  On a finite graph this is the standard equivalent of the
absence of directed parent cycles. -/
def AcyclicParents (cs : List Comment) : Prop :=
  ∃ rank : Comment → Nat, ∀ c ∈ cs, ∀ a ∈ cs, ckey a = cparent c → rank a < rank c

/-- Every comment carries a non-empty (after normalization) id. -/
def AllIds (cs : List Comment) : Prop := ∀ c ∈ cs, ckey c ≠ none

/-- Normalized ids are pairwise distinct. -/
def NodupIds (cs : List Comment) : Prop := (cs.map ckey).Nodup

/-- Every non-null parent reference names an id present in the list. -/
def ResolvableParents (cs : List Comment) : Prop :=
  ∀ c ∈ cs, cparent c ≠ none → ∃ a ∈ cs, ckey a = cparent c

theorem buildThreadFuel_zero (cs : List Comment) (p : JSVal) (d : Nat) :
    buildThreadFuel 0 cs p d = [] := rfl

theorem buildThreadFuel_succ (f : Nat) (cs : List Comment) (p : JSVal) (d : Nat) :
    buildThreadFuel (f + 1) cs p d =
      (directComments cs p).flatMap
        (fun c => (c, d) :: buildThreadFuel f cs c.comment_id (d + 1)) := rfl

theorem mem_directComments {cs : List Comment} {p : JSVal} {c : Comment} :
    c ∈ directComments cs p ↔ c ∈ cs ∧ cparent c = norm p := by
  rw [directComments, (List.perm_insertionSort commentLe _).mem_iff, List.mem_filter]
  simp [cparent]

theorem directComments_sorted (cs : List Comment) (p : JSVal) :
    (directComments cs p).Sorted commentLe :=
  List.sorted_insertionSort commentLe _

theorem directComments_nodup {cs : List Comment} (h : cs.Nodup) (p : JSVal) :
    (directComments cs p).Nodup := by
  rw [directComments]
  exact (List.perm_insertionSort commentLe _).symm.nodup (h.filter _)

/-- The comments of the emission sequence, with depths stripped. -/
def emits (f : Nat) (cs : List Comment) (p : JSVal) (d : Nat) : List Comment :=
  (buildThreadFuel f cs p d).map Prod.fst

theorem emits_zero (cs : List Comment) (p : JSVal) (d : Nat) : emits 0 cs p d = [] := rfl

theorem emits_succ (f : Nat) (cs : List Comment) (p : JSVal) (d : Nat) :
    emits (f + 1) cs p d =
      (directComments cs p).flatMap (fun c => c :: emits f cs c.comment_id (d + 1)) := by
  rw [emits, buildThreadFuel_succ, List.map_flatMap]
  rfl

theorem flatMap_congr {α β : Type} {l : List α} {f g : α → List β}
    (h : ∀ x ∈ l, f x = g x) : l.flatMap f = l.flatMap g := by
  induction l with
  | nil => rfl
  | cons a l ih =>
      rw [List.flatMap_cons, List.flatMap_cons, h a (List.mem_cons_self a l),
        ih (fun x hx => h x (List.mem_cons_of_mem a hx))]

theorem emits_depth (f : Nat) (cs : List Comment) (p : JSVal) (d d' : Nat) :
    emits f cs p d = emits f cs p d' := by
  induction f generalizing p d d' with
  | zero => rfl
  | succ f ih =>
      rw [emits_succ, emits_succ]
      exact flatMap_congr (fun x _ => by rw [ih x.comment_id (d + 1) (d' + 1)])

theorem mem_emits_mono {f f' : Nat} (hf : f ≤ f') {cs : List Comment} {p : JSVal}
    {d : Nat} {z : Comment} (hz : z ∈ emits f cs p d) : z ∈ emits f' cs p d := by
  induction f generalizing f' p d with
  | zero => cases hz
  | succ f ih =>
      rcases hf' : f' with _ | f''
      · omega
      · rw [emits_succ] at hz
        rw [emits_succ]
        rcases List.mem_flatMap.mp hz with ⟨x, hx, hmem⟩
        rcases List.mem_cons.mp hmem with h | h
        · subst h
          exact List.mem_flatMap.mpr ⟨z, hx, List.mem_cons_self z _⟩
        · have hle : f ≤ f'' := by omega
          exact List.mem_flatMap.mpr ⟨x, hx, List.mem_cons_of_mem x (ih hle h)⟩

theorem mem_emits_mem {f : Nat} {cs : List Comment} {p : JSVal} {d : Nat} {z : Comment}
    (hz : z ∈ emits f cs p d) : z ∈ cs := by
  induction f generalizing p d with
  | zero => cases hz
  | succ f ih =>
      rw [emits_succ] at hz
      rcases List.mem_flatMap.mp hz with ⟨x, hx, hmem⟩
      rcases List.mem_cons.mp hmem with h | h
      · exact h ▸ (mem_directComments.mp hx).1
      · exact ih h

theorem anc_of_mem_emits {f : Nat} {cs : List Comment} {x : Comment} (hx : x ∈ cs)
    {d : Nat} {z : Comment} (hz : z ∈ emits f cs x.comment_id d) : Anc cs x z := by
  induction f generalizing x d with
  | zero => cases hz
  | succ f ih =>
      rw [emits_succ] at hz
      rcases List.mem_flatMap.mp hz with ⟨w, hw, hmem⟩
      have hws : Step cs x w := by
        rcases mem_directComments.mp hw with ⟨hw1, hw2⟩
        exact ⟨hx, hw1, hw2⟩
      rcases List.mem_cons.mp hmem with h | h
      · exact h ▸ Relation.TransGen.single hws
      · exact Relation.TransGen.head hws (ih hws.2.1 h)

theorem emit_src {f : Nat} {cs : List Comment} {p : JSVal} {d : Nat} {z : Comment}
    (hz : z ∈ emits f cs p d) :
    cparent z = norm p ∨ ∃ x ∈ cs, ckey x = cparent z := by
  induction f generalizing p d with
  | zero => cases hz
  | succ f ih =>
      rw [emits_succ] at hz
      rcases List.mem_flatMap.mp hz with ⟨x, hx, hmem⟩
      rcases List.mem_cons.mp hmem with h | h
      · exact Or.inl (h ▸ (mem_directComments.mp hx).2)
      · rcases ih h with h' | h'
        · exact Or.inr ⟨x, (mem_directComments.mp hx).1, h'.symm⟩
        · exact Or.inr h'

theorem step_rank {cs : List Comment} {rank : Comment → Nat}
    (hrank : ∀ c ∈ cs, ∀ a ∈ cs, ckey a = cparent c → rank a < rank c)
    {a b : Comment} (h : Step cs a b) : rank a < rank b :=
  hrank b h.2.1 a h.1 h.2.2.symm

theorem anc_rank {cs : List Comment} {rank : Comment → Nat}
    (hrank : ∀ c ∈ cs, ∀ a ∈ cs, ckey a = cparent c → rank a < rank c)
    {a b : Comment} (h : Anc cs a b) : rank a < rank b := by
  induction h with
  | single h => exact step_rank hrank h
  | tail _ h ih => exact lt_trans ih (step_rank hrank h)

theorem ancE_rank {cs : List Comment} {rank : Comment → Nat}
    (hrank : ∀ c ∈ cs, ∀ a ∈ cs, ckey a = cparent c → rank a < rank c)
    {a b : Comment} (h : AncE cs a b) : rank a ≤ rank b := by
  induction h with
  | refl => exact le_refl _
  | tail _ h ih => exact le_trans ih (le_of_lt (step_rank hrank h))

theorem anc_irrefl {cs : List Comment} {rank : Comment → Nat}
    (hrank : ∀ c ∈ cs, ∀ a ∈ cs, ckey a = cparent c → rank a < rank c)
    {a : Comment} (h : Anc cs a a) : False :=
  lt_irrefl _ (anc_rank hrank h)

theorem ckey_inj {cs : List Comment} (hnd : NodupIds cs) {a b : Comment}
    (ha : a ∈ cs) (hb : b ∈ cs) (h : ckey a = ckey b) : a = b :=
  List.inj_on_of_nodup_map hnd ha hb h

theorem ancE_mem_right {cs : List Comment} {a b : Comment} (hab : AncE cs a b) :
    b = a ∨ b ∈ cs := by
  rcases Relation.ReflTransGen.cases_tail hab with h | ⟨c, _, hs⟩
  · exact Or.inl h
  · exact Or.inr hs.2.1

theorem uniq_anc {cs : List Comment} (hnd : NodupIds cs) {rank : Comment → Nat}
    (hrank : ∀ c ∈ cs, ∀ a ∈ cs, ckey a = cparent c → rank a < rank c) :
    ∀ n c, rank c = n → ∀ x y, x ∈ cs → y ∈ cs → cparent x = cparent y →
      AncE cs x c → AncE cs y c → x = y := by
  intro n
  induction n using Nat.strong_induction_on with
  | _ n ih =>
      intro c hcn x y hx hy hpar h1 h2
      rcases Relation.ReflTransGen.cases_tail h1 with he1 | ⟨b₁, hb1, hs1⟩
      · rcases Relation.ReflTransGen.cases_tail h2 with he2 | ⟨b₂, hb2, hs2⟩
        · exact he1.symm.trans he2
        · -- c = x, and y reaches c through a last step b₂ → c
          exfalso
          have hk2 : ckey b₂ = cparent y := by
            rw [← hpar, ← he1]
            exact hs2.2.2.symm
          have hlt : rank b₂ < rank y := hrank y hy b₂ hs2.1 hk2
          have hle : rank y ≤ rank b₂ := ancE_rank hrank hb2
          omega
      · rcases Relation.ReflTransGen.cases_tail h2 with he2 | ⟨b₂, hb2, hs2⟩
        · exfalso
          have hk1 : ckey b₁ = cparent x := by
            rw [hpar, ← he2]
            exact hs1.2.2.symm
          have hlt : rank b₁ < rank x := hrank x hx b₁ hs1.1 hk1
          have hle : rank x ≤ rank b₁ := ancE_rank hrank hb1
          omega
        · have hbb : b₁ = b₂ :=
            ckey_inj hnd hs1.1 hs2.1 (hs1.2.2.symm.trans hs2.2.2)
          subst hbb
          have hlt : rank b₁ < rank c := step_rank hrank hs1
          exact ih (rank b₁) (by omega) b₁ rfl x y hx hy hpar hb1 hb2

theorem no_sib_desc {cs : List Comment} {rank : Comment → Nat}
    (hrank : ∀ c ∈ cs, ∀ a ∈ cs, ckey a = cparent c → rank a < rank c)
    {x c : Comment} (hx : x ∈ cs) (hanc : Anc cs x c) (hpar : cparent x = cparent c) :
    False := by
  rcases Relation.TransGen.tail'_iff.mp hanc with ⟨y, hxy, hyc⟩
  have hk : ckey y = cparent x := by
    rw [hpar]
    exact hyc.2.2.symm
  have hlt : rank y < rank x := hrank x hx y hyc.1 hk
  have hle : rank x ≤ rank y := ancE_rank hrank hxy
  omega

theorem master_pairwise {cs : List Comment} (hnd : NodupIds cs) :
    ∀ f p d, List.Pairwise
      (fun a b : Comment × Nat =>
        Anc cs a.1 b.1 ∨
        ∃ x y, x ∈ cs ∧ y ∈ cs ∧ x ≠ y ∧ cparent x = cparent y ∧
          commentLe x y ∧ AncE cs x a.1 ∧ AncE cs y b.1)
      (buildThreadFuel f cs p d) := by
  intro f
  induction f with
  | zero => intro p d; exact List.Pairwise.nil
  | succ f ih =>
      intro p d
      rw [buildThreadFuel_succ]
      have hfm : (directComments cs p).flatMap
          (fun c => (c, d) :: buildThreadFuel f cs c.comment_id (d + 1)) =
          ((directComments cs p).map
            (fun c => (c, d) :: buildThreadFuel f cs c.comment_id (d + 1))).flatten := rfl
      rw [hfm, List.pairwise_flatten]
      constructor
      · intro l hl
        rcases List.mem_map.mp hl with ⟨x, hxk, rfl⟩
        have hxcs : x ∈ cs := (mem_directComments.mp hxk).1
        refine List.pairwise_cons.mpr ⟨?_, ih x.comment_id (d + 1)⟩
        intro b hb
        exact Or.inl (anc_of_mem_emits hxcs (List.mem_map_of_mem Prod.fst hb))
      · rw [List.pairwise_map]
        have hcs : cs.Nodup := List.Nodup.of_map ckey hnd
        have hnodupk : (directComments cs p).Nodup := directComments_nodup hcs p
        have hsorted : List.Pairwise commentLe (directComments cs p) :=
          directComments_sorted cs p
        refine List.Pairwise.imp_of_mem ?_ (hnodupk.and hsorted)
        intro x y hmx hmy hxy a ha b hb
        rcases hxy with ⟨hne, hle⟩
        refine Or.inr ⟨x, y, (mem_directComments.mp hmx).1, (mem_directComments.mp hmy).1,
          hne, ?_, hle, ?_, ?_⟩
        · rw [(mem_directComments.mp hmx).2, (mem_directComments.mp hmy).2]
        · rcases List.mem_cons.mp ha with h | h
          · rw [h]
            exact Relation.ReflTransGen.refl
          · exact Relation.TransGen.to_reflTransGen
              (anc_of_mem_emits (mem_directComments.mp hmx).1
                (List.mem_map_of_mem Prod.fst h))
        · rcases List.mem_cons.mp hb with h | h
          · rw [h]
            exact Relation.ReflTransGen.refl
          · exact Relation.TransGen.to_reflTransGen
              (anc_of_mem_emits (mem_directComments.mp hmy).1
                (List.mem_map_of_mem Prod.fst h))

theorem emits_nodup {cs : List Comment} (hnd : NodupIds cs) {rank : Comment → Nat}
    (hrank : ∀ c ∈ cs, ∀ a ∈ cs, ckey a = cparent c → rank a < rank c)
    (f : Nat) (p : JSVal) (d : Nat) : (emits f cs p d).Nodup := by
  have hm := master_pairwise hnd f p d
  rw [emits]
  refine (List.pairwise_map).mpr (hm.imp ?_)
  intro a b hab
  rcases hab with hanc | ⟨x, y, hx, hy, hne, hpar, _, hax, hby⟩
  · intro heq
    exact anc_irrefl hrank (heq ▸ hanc)
  · intro heq
    exact hne (uniq_anc hnd hrank (rank a.1) a.1 rfl x y hx hy hpar hax (heq ▸ hby))

theorem countP_strict {α : Type} (l : List α) (p q : α → Bool)
    (himp : ∀ a ∈ l, p a = true → q a = true) (x : α) (hx : x ∈ l)
    (hpx : p x = false) (hqx : q x = true) : l.countP p < l.countP q := by
  induction l with
  | nil => cases hx
  | cons a l ih =>
      rw [List.countP_cons, List.countP_cons]
      rcases List.mem_cons.mp hx with h | h
      · subst h
        have hmono : l.countP p ≤ l.countP q :=
          List.countP_mono_left (fun b hb hpb => himp b (List.mem_cons_of_mem _ hb) hpb)
        rw [hpx, hqx]
        simp only [Bool.false_eq_true, if_false, if_true]
        omega
      · have hlt := ih (fun b hb hpb => himp b (List.mem_cons_of_mem _ hb) hpb) h
        cases hpa : p a
        · simp only [Bool.false_eq_true, if_false]
          omega
        · rw [himp a (List.mem_cons_self a l) hpa]
          simp only [if_true]
          omega

theorem mem_emits_of_child {cs : List Comment} {p : JSVal} {c : Comment}
    (hc : c ∈ directComments cs p) (f d : Nat) : c ∈ emits (f + 1) cs p d := by
  rw [emits_succ]
  exact List.mem_flatMap.mpr ⟨c, hc, List.mem_cons_self c _⟩

theorem emits_subset_of_child {cs : List Comment} {p : JSVal} {x : Comment}
    (hx : x ∈ directComments cs p) {f d d' : Nat} {z : Comment}
    (hz : z ∈ emits f cs x.comment_id d') : z ∈ emits (f + 1) cs p d := by
  rw [emits_succ]
  refine List.mem_flatMap.mpr ⟨x, hx, List.mem_cons_of_mem x ?_⟩
  rw [emits_depth f cs x.comment_id (d + 1) d']
  exact hz

theorem subtree_embed {cs : List Comment} (hres : ResolvableParents cs)
    {rank : Comment → Nat}
    (hrank : ∀ c ∈ cs, ∀ a ∈ cs, ckey a = cparent c → rank a < rank c) :
    ∀ n c, rank c = n → c ∈ cs → ∀ g d z, z ∈ emits g cs c.comment_id d →
      z ∈ emits (cs.countP (fun a => decide (rank a < rank c)) + 1 + g) cs JSVal.null 0 := by
  intro n
  induction n using Nat.strong_induction_on with
  | _ n ih =>
      intro c hcn hc g d z hz
      rcases hpc : cparent c with _ | k
      · have hck : c ∈ directComments cs JSVal.null :=
          mem_directComments.mpr ⟨hc, by rw [hpc]; rfl⟩
        have hz' : z ∈ emits (cs.countP (fun a => decide (rank a < rank c)) + g)
            cs c.comment_id d :=
          mem_emits_mono (by omega) hz
        exact mem_emits_mono (by omega) (emits_subset_of_child hck hz')
      · obtain ⟨y, hy, hky⟩ := hres c hc (by rw [hpc]; simp)
        have hrk : rank y < rank c := hrank c hc y hy hky
        have hmu : cs.countP (fun a => decide (rank a < rank y)) <
            cs.countP (fun a => decide (rank a < rank c)) := by
          refine countP_strict cs _ _ ?_ y hy (by simp) (by simp [hrk])
          intro a _ hpa
          exact decide_eq_true (lt_trans (of_decide_eq_true hpa) hrk)
        have hcky : c ∈ directComments cs y.comment_id :=
          mem_directComments.mpr ⟨hc, hky.symm⟩
        have hz1 : z ∈ emits (g + 1) cs y.comment_id 0 := emits_subset_of_child hcky hz
        have hz2 := ih (rank y) (by omega) y rfl hy (g + 1) 0 z hz1
        exact mem_emits_mono (by omega) hz2

theorem complete_emits {cs : List Comment} (hres : ResolvableParents cs)
    {rank : Comment → Nat}
    (hrank : ∀ c ∈ cs, ∀ a ∈ cs, ckey a = cparent c → rank a < rank c) :
    ∀ c ∈ cs, c ∈ emits (cs.length + 1) cs JSVal.null 0 := by
  intro c hc
  rcases hpc : cparent c with _ | k
  · exact mem_emits_of_child (mem_directComments.mpr ⟨hc, by rw [hpc]; rfl⟩) cs.length 0
  · obtain ⟨y, hy, hky⟩ := hres c hc (by rw [hpc]; simp)
    have hcky : c ∈ directComments cs y.comment_id :=
      mem_directComments.mpr ⟨hc, hky.symm⟩
    have h1 : c ∈ emits 1 cs y.comment_id 0 := mem_emits_of_child hcky 0 0
    have h2 := subtree_embed hres hrank (rank y) y rfl hy 1 0 c h1
    have hmu : cs.countP (fun a => decide (rank a < rank y)) < cs.length := by
      have hs := countP_strict cs (fun a => decide (rank a < rank y)) (fun _ => true)
        (fun a _ _ => rfl) y hy (by simp) rfl
      rw [List.countP_true] at hs
      exact hs
    exact mem_emits_mono (by omega) h2

theorem emit_split {cs : List Comment} :
    ∀ f p d l₁ c dc l₂,
      buildThreadFuel f cs p d = l₁ ++ (c, dc) :: l₂ →
      (cparent c = norm p ∧ dc = d) ∨
      ∃ x dx l₁a l₁b, l₁ = l₁a ++ (x, dx) :: l₁b ∧ ckey x = cparent c ∧ dc = dx + 1 := by
  intro f
  induction f with
  | zero =>
      intro p d l₁ c dc l₂ h
      rw [buildThreadFuel_zero] at h
      exact absurd h (by simp)
  | succ f ih =>
      intro p d l₁ c dc l₂ h
      rw [buildThreadFuel_succ] at h
      have hkmem : ∀ x ∈ directComments cs p, cparent x = norm p :=
        fun x hx => (mem_directComments.mp hx).2
      revert hkmem h
      generalize directComments cs p = ks
      induction ks generalizing l₁ with
      | nil =>
          intro h _
          rw [List.flatMap_nil] at h
          exact absurd h (by simp)
      | cons w ks ihk =>
          intro h hkmem
          rw [List.flatMap_cons, List.cons_append] at h
          cases l₁ with
          | nil =>
              rw [List.nil_append] at h
              injection h with h1 h2
              have hw : w = c := congrArg Prod.fst h1
              have hd : d = dc := congrArg Prod.snd h1
              exact Or.inl ⟨hw ▸ hkmem w (List.mem_cons_self w ks), hd.symm⟩
          | cons e l₁t =>
              rw [List.cons_append] at h
              injection h with h1 h2
              subst h1
              rcases List.append_eq_append_iff.mp h2 with ⟨a', ha1, ha2⟩ | ⟨c', hc1, hc2⟩
              · rcases ihk a' ha2 (fun x hx => hkmem x (List.mem_cons_of_mem w hx)) with
                  hl | ⟨x, dx, l₁a, l₁b, hsp, hk, hd⟩
                · exact Or.inl hl
                · refine Or.inr ⟨x, dx, (w, d) :: (buildThreadFuel f cs w.comment_id (d + 1)
                    ++ l₁a), l₁b, ?_, hk, hd⟩
                  rw [ha1, hsp]
                  simp [List.append_assoc]
              · cases c' with
                | nil =>
                    rcases ihk [] (by rw [List.nil_append]; exact hc2.symm)
                        (fun x hx => hkmem x (List.mem_cons_of_mem w hx)) with
                      hl | ⟨x, dx, l₁a, l₁b, hsp, hk, hd⟩
                    · exact Or.inl hl
                    · exact absurd hsp (by simp)
                | cons e' c't =>
                    injection hc2 with hce hl₂
                    subst hce
                    rcases ih w.comment_id (d + 1) l₁t c dc c't hc1 with
                      ⟨hcp, hdc⟩ | ⟨x, dx, l₁a, l₁b, hsp, hk, hd⟩
                    · exact Or.inr ⟨w, d, [], l₁t, by rw [List.nil_append], hcp.symm, hdc⟩
                    · exact Or.inr ⟨x, dx, (w, d) :: l₁a, l₁b,
                        by rw [hsp, List.cons_append], hk, hd⟩

theorem anc_mem_left {cs : List Comment} {a b : Comment} (h : Anc cs a b) : a ∈ cs := by
  rcases Relation.TransGen.head'_iff.mp h with ⟨c, hs, _⟩
  exact hs.1

theorem length_buildThread_depth (f : Nat) (cs : List Comment) (p : JSVal) (d d' : Nat) :
    (buildThreadFuel f cs p d).length = (buildThreadFuel f cs p d').length := by
  have h1 : ∀ d0, (buildThreadFuel f cs p d0).length = (emits f cs p d0).length := by
    intro d0
    rw [emits, List.length_map]
  rw [h1 d, h1 d', emits_depth f cs p d d']

theorem length_buildThread_mono {f f' : Nat} (hf : f ≤ f') (cs : List Comment) (p : JSVal)
    (d : Nat) : (buildThreadFuel f cs p d).length ≤ (buildThreadFuel f' cs p d).length := by
  induction f generalizing f' p d with
  | zero => simp [buildThreadFuel_zero]
  | succ f ih =>
      rcases f' with _ | f''
      · omega
      · rw [buildThreadFuel_succ, buildThreadFuel_succ, List.length_flatMap,
          List.length_flatMap]
        apply List.sum_le_sum
        intro x _
        simp only [Function.comp_apply, List.length_cons]
        exact Nat.succ_le_succ (ih (by omega) x.comment_id (d + 1))

theorem piece_length_le {cs : List Comment} {p : JSVal} {d : Nat} {x : Comment}
    (hx : x ∈ directComments cs p) (f : Nat) :
    ((x, d) :: buildThreadFuel f cs x.comment_id (d + 1)).length ≤
      (buildThreadFuel (f + 1) cs p d).length := by
  rw [buildThreadFuel_succ, List.length_flatMap]
  refine List.single_le_sum (fun n _ => Nat.zero_le n) _ ?_
  exact List.mem_map.mpr ⟨x, hx, rfl⟩

theorem subtree_growth {cs : List Comment} :
    ∀ f₀ p d c dc, (c, dc) ∈ buildThreadFuel f₀ cs p d →
      ∀ g, (buildThreadFuel g cs c.comment_id 0).length <
        (buildThreadFuel (f₀ + g) cs p d).length := by
  intro f₀
  induction f₀ with
  | zero => intro p d c dc h; cases h
  | succ f₀ ih =>
      intro p d c dc h g
      rw [buildThreadFuel_succ] at h
      rcases List.mem_flatMap.mp h with ⟨x, hx, hm⟩
      have harith : (f₀ + 1) + g = (f₀ + g) + 1 := by omega
      rw [harith]
      rcases List.mem_cons.mp hm with h1 | h1
      · have hcx : c = x := congrArg Prod.fst h1
        subst hcx
        have hp := @piece_length_le cs p d c hx (f₀ + g)
        rw [List.length_cons] at hp
        have hmono := length_buildThread_mono (show g ≤ f₀ + g by omega) cs
          c.comment_id (d + 1)
        have hdep := length_buildThread_depth g cs c.comment_id 0 (d + 1)
        omega
      · have h2 := ih x.comment_id (d + 1) c dc h1 g
        have hp := @piece_length_le cs p d x hx (f₀ + g)
        rw [List.length_cons] at hp
        omega

theorem directComments_congr {cs : List Comment} {p q : JSVal} (h : norm p = norm q) :
    directComments cs p = directComments cs q := by
  simp only [directComments, h]

theorem buildThreadFuel_congr {cs : List Comment} {p q : JSVal} (h : norm p = norm q) :
    ∀ f d, buildThreadFuel f cs p d = buildThreadFuel f cs q d := by
  intro f d
  cases f with
  | zero => rfl
  | succ f => rw [buildThreadFuel_succ, buildThreadFuel_succ, directComments_congr h]

/-! ## Claims C3, C4, C5, C6, C9: thread reconstruction -/

/-- The duplicate-id comment list refuting claim C3 as stated: two
distinct comments share the id 1, so the comment with parent 1 is
emitted once beneath each of them. -/
def dupIdComments : List Comment :=
  [⟨JSVal.str ("1"), JSVal.null, JSTime.num 10⟩,
   ⟨JSVal.str ("1"), JSVal.null, JSTime.num 20⟩,
   ⟨JSVal.str ("2"), JSVal.str ("1"), JSTime.num 30⟩]

/-- Counterexample to claim C3 as stated: dupIdComments satisfies all the
stated preconditions (non-empty ids, resolvable parents, acyclic parent
graph), yet the comment with id 2 is emitted twice, so the emission is
not a permutation of the list. -/
theorem C3_counterexample :
    AllIds dupIdComments ∧ ResolvableParents dupIdComments ∧
    AcyclicParents dupIdComments ∧
    ((buildThread dupIdComments).map Prod.fst).count
      ⟨JSVal.str ("2"), JSVal.str ("1"), JSTime.num 30⟩ = 2 ∧
    ¬ ((buildThread dupIdComments).map Prod.fst).Perm dupIdComments :=
  ⟨(by decide : ∀ c ∈ dupIdComments, ckey c ≠ none),
   (by decide : ∀ c ∈ dupIdComments, cparent c ≠ none →
      ∃ a ∈ dupIdComments, ckey a = cparent c),
   ⟨fun c => if c.comment_id = JSVal.str ("2") then 1 else 0, by decide⟩,
   by decide, by decide⟩

/-- Claim C3 (amended with pairwise-distinct normalized ids): for a
comment list with non-empty, pairwise-distinct normalized ids, resolvable
parent references and an acyclic parent graph, buildThread from the null
root emits every comment exactly once (the emitted comments are a
permutation of the list); and in any comment list whatsoever, a comment
whose non-null parent reference matches no id in the list is never
emitted. -/
theorem C3_thread_emission (cs : List Comment)
    (_hid : AllIds cs) (hnd : NodupIds cs) (hres : ResolvableParents cs)
    (hacyc : AcyclicParents cs) :
    ((buildThread cs).map Prod.fst).Perm cs ∧
    (∀ ds : List Comment, ∀ c ∈ ds, norm c.parent_comment_id ≠ none →
      (∀ a ∈ ds, norm a.comment_id ≠ norm c.parent_comment_id) →
      ∀ d : Nat, (c, d) ∉ buildThread ds) := by
  obtain ⟨rank, hrank⟩ := hacyc
  constructor
  · have hnodup : (emits (cs.length + 1) cs JSVal.null 0).Nodup :=
      emits_nodup hnd hrank _ _ _
    have hsub1 : emits (cs.length + 1) cs JSVal.null 0 ⊆ cs :=
      fun z hz => mem_emits_mem hz
    have hsub2 : cs ⊆ emits (cs.length + 1) cs JSVal.null 0 :=
      fun c hc => complete_emits hres hrank c hc
    have hcs : cs.Nodup := List.Nodup.of_map ckey hnd
    exact List.Subperm.antisymm (hnodup.subperm hsub1) (hcs.subperm hsub2)
  · intro ds c _ hp hdang d hmem
    have hz : c ∈ emits (ds.length + 1) ds JSVal.null 0 :=
      List.mem_map_of_mem Prod.fst hmem
    rcases emit_src hz with h | ⟨x, hx, hk⟩
    · exact hp h
    · exact hdang x hx hk

/-- A well-formed three-comment thread used to witness the amended C3. -/
def simpleThread : List Comment :=
  [⟨JSVal.str ("1"), JSVal.null, JSTime.num 10⟩,
   ⟨JSVal.str ("2"), JSVal.str ("1"), JSTime.num 20⟩,
   ⟨JSVal.str ("3"), JSVal.null, JSTime.num 5⟩]

/-- Witness for the amended C3 at a concrete well-formed thread. -/
theorem C3_thread_emission_witness :
    ((buildThread simpleThread).map Prod.fst).Perm simpleThread :=
  (C3_thread_emission simpleThread
      (by decide : ∀ c ∈ simpleThread, ckey c ≠ none)
      (by decide : (simpleThread.map ckey).Nodup)
      (by decide : ∀ c ∈ simpleThread, cparent c ≠ none →
        ∃ a ∈ simpleThread, ckey a = cparent c)
      ⟨fun c => if c.parent_comment_id = JSVal.null then 0 else 1, by decide⟩).1

/-- Claim C4: in the sequence produced by buildThread from the null root
over an acyclic, fully resolvable comment list, every occurrence of a
comment with a non-null parent reference is preceded by an occurrence of
its parent (a comment whose id matches the reference), recorded at depth
exactly one less: children are emitted directly beneath their parent in
pre-order. -/
theorem C4_child_after_parent (cs : List Comment)
    (_hres : ResolvableParents cs) (_hacyc : AcyclicParents cs)
    (l₁ : List (Comment × Nat)) (c : Comment) (dc : Nat) (l₂ : List (Comment × Nat))
    (h : buildThread cs = l₁ ++ (c, dc) :: l₂) (hp : norm c.parent_comment_id ≠ none) :
    ∃ x dx l₁a l₁b, l₁ = l₁a ++ (x, dx) :: l₁b ∧
      norm x.comment_id = norm c.parent_comment_id ∧ dc = dx + 1 := by
  rcases emit_split (cs.length + 1) JSVal.null 0 l₁ c dc l₂ h with ⟨h1, _⟩ | h2
  · exact absurd h1 hp
  · exact h2

/-- Witness for C4: in the two-comment thread, the reply at depth 1 is
preceded by its parent at depth 0. -/
theorem C4_child_after_parent_witness :
    ∃ x dx l₁a l₁b,
      [((⟨JSVal.str ("1"), JSVal.null, JSTime.num 10⟩ : Comment), 0)] =
        l₁a ++ (x, dx) :: l₁b ∧
      norm x.comment_id =
        norm (⟨JSVal.str ("2"), JSVal.str ("1"), JSTime.num 20⟩ : Comment).parent_comment_id ∧
      1 = dx + 1 :=
  C4_child_after_parent
    [⟨JSVal.str ("1"), JSVal.null, JSTime.num 10⟩,
     ⟨JSVal.str ("2"), JSVal.str ("1"), JSTime.num 20⟩]
    (by decide : ∀ c ∈ ([⟨JSVal.str ("1"), JSVal.null, JSTime.num 10⟩,
        ⟨JSVal.str ("2"), JSVal.str ("1"), JSTime.num 20⟩] : List Comment),
      cparent c ≠ none →
        ∃ a ∈ ([⟨JSVal.str ("1"), JSVal.null, JSTime.num 10⟩,
          ⟨JSVal.str ("2"), JSVal.str ("1"), JSTime.num 20⟩] : List Comment),
          ckey a = cparent c)
    ⟨fun c => if c.parent_comment_id = JSVal.null then 0 else 1, by decide⟩
    [(⟨JSVal.str ("1"), JSVal.null, JSTime.num 10⟩, 0)]
    ⟨JSVal.str ("2"), JSVal.str ("1"), JSTime.num 20⟩ 1 [] (by decide) (by decide)

/-- The duplicate-id comment list refuting claim C5 as stated: the
children of id 1 are re-emitted beneath the second holder of id 1, which
puts the late child (t = 10) before a fresh copy of the early child
(t = 3). -/
def dupSibComments : List Comment :=
  [⟨JSVal.str ("1"), JSVal.null, JSTime.num 1⟩,
   ⟨JSVal.str ("1"), JSVal.null, JSTime.num 2⟩,
   ⟨JSVal.str ("c1"), JSVal.str ("1"), JSTime.num 10⟩,
   ⟨JSVal.str ("c2"), JSVal.str ("1"), JSTime.num 3⟩]

/-- Counterexample to claim C5 as stated: on dupSibComments the emission
sequence contains two comments with the same normalized parent in
descending timestamp order. -/
theorem C5_counterexample :
    ¬ List.Pairwise
        (fun a b : Comment × Nat =>
          norm a.1.parent_comment_id = norm b.1.parent_comment_id →
          sortKey a.1.timestamp ≤ sortKey b.1.timestamp)
        (buildThread dupSibComments) := by decide

/-- Claim C5 (amended with the thread well-formedness preconditions:
non-empty pairwise-distinct normalized ids, resolvable parents, acyclic
parent graph): in the buildThread sequence, any two comments sharing the
same normalized parent appear in ascending order of parsed timestamp
(missing or malformed timestamps sort with key 0). -/
theorem C5_sibling_order (cs : List Comment)
    (_hid : AllIds cs) (hnd : NodupIds cs) (_hres : ResolvableParents cs)
    (hacyc : AcyclicParents cs) :
    List.Pairwise
      (fun a b : Comment × Nat =>
        norm a.1.parent_comment_id = norm b.1.parent_comment_id →
        sortKey a.1.timestamp ≤ sortKey b.1.timestamp)
      (buildThread cs) := by
  obtain ⟨rank, hrank⟩ := hacyc
  have hm := master_pairwise hnd (cs.length + 1) JSVal.null 0
  refine hm.imp ?_
  intro a b hab hpp
  rcases hab with hanc | ⟨x, y, hx, hy, hne, hpar, hle, hax, hby⟩
  · exact absurd hpp (fun hpp' => no_sib_desc hrank (anc_mem_left hanc) hanc hpp')
  · rcases Relation.ReflTransGen.cases_tail hax with hxa | ⟨u, hxu, hua⟩
    · rcases Relation.ReflTransGen.cases_tail hby with hyb | ⟨v, hyv, hvb⟩
      · rw [hxa, hyb]
        exact hle
      · exfalso
        have hkv : ckey v = cparent x := by
          rw [← hxa]
          exact hvb.2.2.symm.trans hpp.symm
        have hsvx : Step cs v x := ⟨hvb.1, hx, hkv.symm⟩
        exact no_sib_desc hrank hy (Relation.TransGen.tail' hyv hsvx) hpar.symm
    · rcases Relation.ReflTransGen.cases_tail hby with hyb | ⟨v, hyv, hvb⟩
      · exfalso
        have hku : ckey u = cparent y := by
          rw [← hyb]
          exact hua.2.2.symm.trans hpp
        have hsuy : Step cs u y := ⟨hua.1, hy, hku.symm⟩
        exact no_sib_desc hrank hx (Relation.TransGen.tail' hxu hsuy) hpar
      · exfalso
        have huv : u = v :=
          ckey_inj hnd hua.1 hvb.1 (hua.2.2.symm.trans (hpp.trans hvb.2.2))
        subst huv
        exact hne (uniq_anc hnd hrank (rank u) u rfl x y hx hy hpar hxu hyv)

/-- Witness for the amended C5 at a concrete well-formed thread: the
sibling-order property holds on the three-comment example. -/
theorem C5_sibling_order_witness :
    List.Pairwise
      (fun a b : Comment × Nat =>
        norm a.1.parent_comment_id = norm b.1.parent_comment_id →
        sortKey a.1.timestamp ≤ sortKey b.1.timestamp)
      (buildThread
        [⟨JSVal.str ("1"), JSVal.null, JSTime.num 10⟩,
         ⟨JSVal.str ("2"), JSVal.str ("1"), JSTime.num 20⟩,
         ⟨JSVal.str ("3"), JSVal.null, JSTime.num 5⟩]) :=
  C5_sibling_order
    [⟨JSVal.str ("1"), JSVal.null, JSTime.num 10⟩,
     ⟨JSVal.str ("2"), JSVal.str ("1"), JSTime.num 20⟩,
     ⟨JSVal.str ("3"), JSVal.null, JSTime.num 5⟩]
    (by decide : ∀ c ∈ ([⟨JSVal.str ("1"), JSVal.null, JSTime.num 10⟩,
        ⟨JSVal.str ("2"), JSVal.str ("1"), JSTime.num 20⟩,
        ⟨JSVal.str ("3"), JSVal.null, JSTime.num 5⟩] : List Comment), ckey c ≠ none)
    (by decide : (([⟨JSVal.str ("1"), JSVal.null, JSTime.num 10⟩,
        ⟨JSVal.str ("2"), JSVal.str ("1"), JSTime.num 20⟩,
        ⟨JSVal.str ("3"), JSVal.null, JSTime.num 5⟩] : List Comment).map ckey).Nodup)
    (by decide : ∀ c ∈ ([⟨JSVal.str ("1"), JSVal.null, JSTime.num 10⟩,
        ⟨JSVal.str ("2"), JSVal.str ("1"), JSTime.num 20⟩,
        ⟨JSVal.str ("3"), JSVal.null, JSTime.num 5⟩] : List Comment),
      cparent c ≠ none →
        ∃ a ∈ ([⟨JSVal.str ("1"), JSVal.null, JSTime.num 10⟩,
          ⟨JSVal.str ("2"), JSVal.str ("1"), JSTime.num 20⟩,
          ⟨JSVal.str ("3"), JSVal.null, JSTime.num 5⟩] : List Comment),
          ckey a = cparent c)
    ⟨fun c => if c.parent_comment_id = JSVal.null then 0 else 1, by decide⟩

/-- Claim C6: parent matching is performed on the canonical form computed
by norm: null or missing ids and ids that are empty after trimming
normalize to none (root); any other id normalizes to the trimmed form of
its String(v) image; hence the numeric id 5 and the string id 5 are
interchangeable as recursion targets of buildThreadFuel, and any two
targets with the same canonical form select identical output. -/
theorem C6_norm_canonical (cs : List Comment) (f d : Nat) (p q : JSVal) :
    norm JSVal.null = none ∧
    (∀ s : String, (jsTrim s).length = 0 → norm (JSVal.str s) = none) ∧
    (∀ s : String, (jsTrim s).length ≠ 0 → norm (JSVal.str s) = some (jsTrim s)) ∧
    (∀ n : Int, norm (JSVal.num n) =
      (if (jsTrim (toString n)).length = 0 then none else some (jsTrim (toString n)))) ∧
    norm (JSVal.num 5) = some ("5") ∧
    norm (JSVal.str ("5")) = some ("5") ∧
    (norm p = norm q → buildThreadFuel f cs p d = buildThreadFuel f cs q d) ∧
    buildThreadFuel f cs (JSVal.num 5) d = buildThreadFuel f cs (JSVal.str ("5")) d := by
  refine ⟨rfl, ?_, ?_, fun n => rfl, by decide, by decide, ?_, ?_⟩
  · intro s hs
    show (if (jsTrim s).length = 0 then none else some (jsTrim s)) = none
    rw [if_pos hs]
  · intro s hs
    show (if (jsTrim s).length = 0 then none else some (jsTrim s)) = some (jsTrim s)
    rw [if_neg hs]
  · intro h
    exact buildThreadFuel_congr h f d
  · exact buildThreadFuel_congr (by decide) f d

/-- Witness for C6: a blank string id normalizes to none, a padded id to
its trimmed form, and the targets num 5 and str 5 produce the same
output on a one-comment list. -/
theorem C6_norm_canonical_witness :
    norm (JSVal.str ("   ")) = none ∧
    norm (JSVal.str (" a ")) = some ("a") ∧
    buildThreadFuel 2 [⟨JSVal.str ("5"), JSVal.num 5, JSTime.num 3⟩] (JSVal.num 5) 0 =
      buildThreadFuel 2 [⟨JSVal.str ("5"), JSVal.num 5, JSTime.num 3⟩]
        (JSVal.str ("5")) 0 :=
  ⟨(C6_norm_canonical [] 0 0 JSVal.null JSVal.null).2.1 ("   ") (by decide),
   (C6_norm_canonical [] 0 0 JSVal.null JSVal.null).2.2.1 (" a ") (by decide),
   (C6_norm_canonical [⟨JSVal.str ("5"), JSVal.num 5, JSTime.num 3⟩] 2 0
      (JSVal.num 5) (JSVal.str ("5"))).2.2.2.2.2.2.1 (by decide)⟩

/-- Claim C9: the source recursion is not total once a comment with a
missing or empty comment_id is emitted: the recursive call then targets
the root level again, so the emission sequence grows without bound in
the fuel (the JavaScript recursion never terminates).  The hypothesis
states that some comment with canonically-null id is emitted at some
fuel; the conclusion exhibits outputs of every length. -/
theorem C9_empty_id_divergence (cs : List Comment)
    (h : ∃ f d c, (c, d) ∈ buildThreadFuel f cs JSVal.null 0 ∧
      norm c.comment_id = none) :
    ∀ n : Nat, ∃ f, n ≤ (buildThreadFuel f cs JSVal.null 0).length := by
  obtain ⟨f₀, d₀, c, hmem, hkey⟩ := h
  have hgrow : ∀ g, (buildThreadFuel g cs JSVal.null 0).length <
      (buildThreadFuel (f₀ + g) cs JSVal.null 0).length := by
    intro g
    have h1 := subtree_growth f₀ JSVal.null 0 c d₀ hmem g
    rw [buildThreadFuel_congr (show norm c.comment_id = norm JSVal.null from hkey) g 0] at h1
    exact h1
  intro n
  induction n with
  | zero => exact ⟨0, Nat.zero_le _⟩
  | succ n ihn =>
      obtain ⟨f, hf⟩ := ihn
      refine ⟨f₀ + f, ?_⟩
      have := hgrow f
      omega

/-- Witness for C9: a single comment with null id is emitted at fuel 1,
and indeed an output of length at least 3 exists at some fuel. -/
theorem C9_empty_id_divergence_witness :
    ∃ f, 3 ≤ (buildThreadFuel f [(⟨JSVal.null, JSVal.null, JSTime.num 7⟩ : Comment)]
      JSVal.null 0).length :=
  C9_empty_id_divergence [⟨JSVal.null, JSVal.null, JSTime.num 7⟩]
    ⟨1, 0, ⟨JSVal.null, JSVal.null, JSTime.num 7⟩, by decide, rfl⟩ 3

end RedditMastermind
